import Mathlib

/-!
Shallow embedding of the `fx-opti` repository and proofs about it.

Source files embedded:
* `src/markowitz_optimizer.py` — input validation, portfolio statistics,
  the analytical (unconstrained) Sharpe optimizer and the long-only
  grid-search Sharpe optimizer for exactly 3 assets.
* `src/portfolio_optimizer.py` — the two-asset FX minimum-variance hedge
  solver and its portfolio volatility routine.

Float arithmetic is idealized as exact real arithmetic.  The two places
where IEEE special values are observable in the source are modelled
explicitly:
* `np.sqrt` of a negative number yields NaN (no exception); we model the
  result of `np.sqrt` as `Option ℝ` with `none` standing for NaN.
* `math.sqrt` of a negative number raises `ValueError`; we model it as
  `Except` with a `mathDomainError` outcome.
* the Sharpe ratio can be a finite float, `-inf`, or NaN; comparisons
  against NaN are always false, exactly as in Python.
-/

open Matrix
open scoped Classical

/-- Error outcomes of the library, one per `raise` site of the source
(plus the `math.sqrt` domain error of the Python runtime). -/
inductive OptError where
  | shapeError
  | symmetryError
  | singularCovariance
  | degenerateNormalization
  | invalidResolution
  | mathDomainError
  deriving DecidableEq

/-- Value of the `sharpe_ratio` field as float arithmetic produces it:
a finite real, the sentinel `-inf`, or NaN. -/
inductive Sharpe where
  | nan : Sharpe
  | negInf : Sharpe
  | val : ℝ → Sharpe

/-- Python float strict `>` on Sharpe values: every comparison involving
NaN is false, `-inf` is strictly below every finite value and not below
itself. -/
def sharpeGt : Sharpe → Sharpe → Prop
  | Sharpe.nan, _ => False
  | _, Sharpe.nan => False
  | Sharpe.negInf, _ => False
  | Sharpe.val _, Sharpe.negInf => True
  | Sharpe.val a, Sharpe.val b => b < a

/-- Non-strict comparison derived from `sharpeGt`. -/
def sharpeGe (a b : Sharpe) : Prop := sharpeGt a b ∨ a = b

/-- A Sharpe value that is not NaN. -/
def noNan : Sharpe → Prop
  | Sharpe.nan => False
  | _ => True

/-- Result record of `markowitz_optimizer.py` (`MarkowitzResult` dataclass).
`volatility` is `Option ℝ` because `np.sqrt` of a negative variance is NaN
(modelled as `none`). -/
structure MarkowitzResult where
  weights : Fin 3 → ℝ
  expected_return : ℝ
  volatility : Option ℝ
  sharpe_ratio : Sharpe

/-- Model of `np.sqrt` on a scalar: NaN (`none`) for negative input,
the real square root otherwise. -/
noncomputable def npSqrt (x : ℝ) : Option ℝ :=
  if x < 0 then none else some (Real.sqrt x)

/-- Embedding of `portfolio_stats` (src/markowitz_optimizer.py, lines 28-43).
`exp_ret = w @ mu`; `vol = np.sqrt(w @ cov @ w)`; `sharpe = -inf` when
`vol <= 0`, else `(exp_ret - rf) / vol`.  A NaN volatility fails the
`vol <= 0` test in Python and then propagates to a NaN Sharpe ratio. -/
noncomputable def portfolio_stats (weights mu : Fin 3 → ℝ)
    (cov : Matrix (Fin 3) (Fin 3) ℝ) (rf : ℝ) : MarkowitzResult :=
  let exp_ret : ℝ := weights ⬝ᵥ mu
  let vol : Option ℝ := npSqrt (Matrix.vecMul weights cov ⬝ᵥ weights)
  let sharpe : Sharpe :=
    match vol with
    | none => Sharpe.nan
    | some v => if v ≤ 0 then Sharpe.negInf else Sharpe.val ((exp_ret - rf) / v)
  { weights := weights
    expected_return := exp_ret
    volatility := vol
    sharpe_ratio := sharpe }

/-- Symmetry test of `_validate_inputs` for a 3x3 matrix:
`np.allclose(cov, cov.T, atol=1e-10)` with numpy's default relative
tolerance `rtol = 1e-5`, elementwise
`|cov i j - cov j i| <= atol + rtol * |cov j i|`. -/
def symCheck (cov : Matrix (Fin 3) (Fin 3) ℝ) : Prop :=
  ∀ i j, |cov i j - cov j i| ≤ 1e-10 + 1e-5 * |cov j i|

/-- Entry access for the list-of-lists form of a covariance matrix
(out-of-range reads default to 0; they are only used after the shape
check has passed). -/
def covGet (cov : List (List ℝ)) (i j : ℕ) : ℝ :=
  (cov.getD i []).getD j 0

/-- Shape test of `_validate_inputs` for `cov`: a 3x3 array, i.e. three
rows of three entries each. -/
def covShape3 (cov : List (List ℝ)) : Prop :=
  cov.length = 3 ∧ ∀ row ∈ cov, row.length = 3

/-- Symmetry test of `_validate_inputs` on the list form of `cov`. -/
def allcloseSym (cov : List (List ℝ)) : Prop :=
  ∀ i < 3, ∀ j < 3,
    |covGet cov i j - covGet cov j i| ≤ 1e-10 + 1e-5 * |covGet cov j i|

/-- Embedding of `_validate_inputs` (src/markowitz_optimizer.py, lines
14-25) on dynamically shaped inputs: shape check on `mu`, shape check on
`cov`, then `np.allclose(cov, cov.T, atol=1e-10)` (default `rtol=1e-5`);
inputs that pass are returned unchanged. -/
noncomputable def validate_inputs (mu : List ℝ) (cov : List (List ℝ)) :
    Except OptError (List ℝ × List (List ℝ)) :=
  if mu.length ≠ 3 then .error .shapeError
  else if ¬ covShape3 cov then .error .shapeError
  else if ¬ allcloseSym cov then .error .symmetryError
  else .ok (mu, cov)

theorem sharpeGe_refl (a : Sharpe) : sharpeGe a a := Or.inr rfl

theorem sharpeGe_of_gt {a b : Sharpe} (h : sharpeGt a b) : sharpeGe a b := Or.inl h

theorem sharpeGt_or_ge (a b : Sharpe) (ha : noNan a) (hb : noNan b) :
    sharpeGt a b ∨ sharpeGe b a := by
  cases a with
  | nan => exact absurd ha (by simp [noNan])
  | negInf =>
    cases b with
    | nan => exact absurd hb (by simp [noNan])
    | negInf => exact Or.inr (sharpeGe_refl _)
    | val u => exact Or.inr (Or.inl trivial)
  | val t =>
    cases b with
    | nan => exact absurd hb (by simp [noNan])
    | negInf => exact Or.inl trivial
    | val u =>
      rcases lt_trichotomy u t with h | h | h
      · exact Or.inl h
      · exact Or.inr (Or.inr (by rw [h]))
      · exact Or.inr (Or.inl h)

theorem sharpeGe_trans {a b c : Sharpe} (ha : noNan a) (hb : noNan b) (hc : noNan c)
    (hab : sharpeGe a b) (hbc : sharpeGe b c) : sharpeGe a c := by
  rcases hab with hab | rfl
  · rcases hbc with hbc | rfl
    · cases a <;> cases b <;> cases c <;>
        simp_all [sharpeGt, sharpeGe, noNan]
      exact Or.inl (lt_trans hbc hab)
    · exact Or.inl hab
  · exact hbc

/-- Python's `round` on an exact rational: round half to even, as a
`float`-valued `round` behaves for the in-range values the source feeds
it. -/
def pyRound (x : ℚ) : ℤ :=
  let f : ℤ := Int.floor x
  if x - f < 1/2 then f
  else if 1/2 < x - f then f + 1
  else if f % 2 = 0 then f else f + 1

/-- Exact-arithmetic model of `np.linspace(a, b, n)`: `n` evenly spaced
samples `a + i * (b - a) / (n - 1)` (for `n = 1` numpy returns `[a]`,
which the `ℚ`-division-by-zero convention reproduces). -/
def linspace (a b : ℚ) (n : ℕ) : List ℚ :=
  (List.range n).map fun (i : ℕ) => a + (i : ℚ) * ((b - a) / ((n : ℚ) - 1))

/-- Candidate triples `(w1, w2, w3)` enumerated by the long-only grid
search (src/markowitz_optimizer.py, lines 94-103): `w1` over
`np.linspace(0, 1, grid_size)`; for each, `max_w2 = 1 - w1`,
`n2 = max(2, int(round(max_w2 * (grid_size - 1))) + 1)`, `w2` over
`np.linspace(0, max_w2, n2)`, and `w3 = 1 - w1 - w2`. -/
def gridCandidates (grid_size : ℕ) : List (ℚ × ℚ × ℚ) :=
  (linspace 0 1 grid_size).flatMap fun w1 =>
    let max_w2 : ℚ := 1 - w1
    let n2 : ℕ := max 2 ((pyRound (max_w2 * ((grid_size : ℚ) - 1)) + 1).toNat)
    (linspace 0 max_w2 n2).map fun w2 => (w1, w2, 1 - w1 - w2)

/-- Candidate triples as the specification describes them: `w1` ranges
over `grid_size` uniformly spaced points `i / (grid_size - 1)` of
`[0, 1]`; for each `w1`, `w2` ranges over
`max(2, round((1 - w1) * (grid_size - 1)) + 1)` uniformly spaced points
of `[0, 1 - w1]`; and `w3 = 1 - w1 - w2`. -/
def specCandidates (grid_size : ℕ) : List (ℚ × ℚ × ℚ) :=
  (List.range grid_size).flatMap fun (i : ℕ) =>
    let w1 : ℚ := (i : ℚ) / ((grid_size : ℚ) - 1)
    let n2 : ℕ := max 2 ((pyRound ((1 - w1) * ((grid_size : ℚ) - 1)) + 1).toNat)
    (List.range n2).map fun (j : ℕ) =>
      let w2 : ℚ := (j : ℚ) * ((1 - w1) / ((n2 : ℚ) - 1))
      (w1, w2, 1 - w1 - w2)

/-- Interpret an exact grid triple as the real weight vector
`np.array([w1, w2, w3])`. -/
noncomputable def castW (c : ℚ × ℚ × ℚ) : Fin 3 → ℝ :=
  ![(c.1 : ℝ), (c.2.1 : ℝ), (c.2.2 : ℝ)]

/-- Initial best-so-far record of the grid search
(src/markowitz_optimizer.py, lines 87-92): all weight on asset 1, its
real return and volatility, Sharpe forced to `-inf`. -/
noncomputable def initBest (mu : Fin 3 → ℝ) (cov : Matrix (Fin 3) (Fin 3) ℝ) :
    MarkowitzResult :=
  { weights := ![1, 0, 0]
    expected_return := mu 0
    volatility := npSqrt (cov 0 0)
    sharpe_ratio := Sharpe.negInf }

/-- One iteration of the grid-search loop body: score the candidate and
replace the best-so-far record exactly when the candidate's Sharpe ratio
is strictly greater. -/
noncomputable def stepBest (mu : Fin 3 → ℝ) (cov : Matrix (Fin 3) (Fin 3) ℝ)
    (rf : ℝ) (best : MarkowitzResult) (c : ℚ × ℚ × ℚ) : MarkowitzResult :=
  let stats := portfolio_stats (castW c) mu cov rf
  if sharpeGt stats.sharpe_ratio best.sharpe_ratio then stats else best

/-- Embedding of `optimize_sharpe_long_only`
(src/markowitz_optimizer.py, lines 69-108): validation (symmetry; the
shape checks are static here), the `grid_size >= 3` gate, then a fold of
the loop body over the grid candidates. -/
noncomputable def optimize_sharpe_long_only (mu : Fin 3 → ℝ)
    (cov : Matrix (Fin 3) (Fin 3) ℝ) (rf : ℝ) (grid_size : ℕ) :
    Except OptError MarkowitzResult :=
  if ¬ symCheck cov then .error .symmetryError
  else if grid_size < 3 then .error .invalidResolution
  else .ok ((gridCandidates grid_size).foldl (stepBest mu cov rf) (initBest mu cov))

/-- The all-ones vector `np.ones(3)`. -/
def ones3 : Fin 3 → ℝ := fun _ => 1

/-- Solution of `np.linalg.solve(cov, mu - rf * ones)` in exact
arithmetic (meaningful when `cov.det ≠ 0`). -/
noncomputable def rawSol (mu : Fin 3 → ℝ) (cov : Matrix (Fin 3) (Fin 3) ℝ)
    (rf : ℝ) : Fin 3 → ℝ :=
  cov⁻¹ *ᵥ (mu - rf • ones3)

/-- Normalization denominator `ones @ raw` of the analytical solver. -/
noncomputable def denomOf (mu : Fin 3 → ℝ) (cov : Matrix (Fin 3) (Fin 3) ℝ)
    (rf : ℝ) : ℝ :=
  ones3 ⬝ᵥ rawSol mu cov rf

/-- Embedding of `optimize_sharpe_unconstrained`
(src/markowitz_optimizer.py, lines 46-66): validation, the linear solve
(`LinAlgError` exactly when the matrix is singular, i.e. `det = 0` in
exact arithmetic), the `|denom| < 1e-14` degeneracy gate, then the
normalized weights `raw / denom` are scored. -/
noncomputable def optimize_sharpe_unconstrained (mu : Fin 3 → ℝ)
    (cov : Matrix (Fin 3) (Fin 3) ℝ) (rf : ℝ) : Except OptError MarkowitzResult :=
  if ¬ symCheck cov then .error .symmetryError
  else if cov.det = 0 then .error .singularCovariance
  else if |denomOf mu cov rf| < 1e-14 then .error .degenerateNormalization
  else .ok (portfolio_stats (fun i => rawSol mu cov rf i / denomOf mu cov rf) mu cov rf)

/-- The all-ones vector `np.ones(2)`. -/
def ones2 : Fin 2 → ℝ := fun _ => 1

/-- Covariance matrix built by the FX module
(src/portfolio_optimizer.py): the effective correlation is the negation
of the input correlation, `corr_eur_jpy = -corr_eurusd_usdjpy`. -/
noncomputable def fxCov (vol_eurusd vol_usdjpy corr_eurusd_usdjpy : ℝ) :
    Matrix (Fin 2) (Fin 2) ℝ :=
  let sigma_eur := vol_eurusd
  let sigma_jpy := vol_usdjpy
  let corr_eur_jpy := -corr_eurusd_usdjpy
  !![sigma_eur ^ 2, corr_eur_jpy * sigma_eur * sigma_jpy;
     corr_eur_jpy * sigma_eur * sigma_jpy, sigma_jpy ^ 2]

/-- Embedding of `min_variance_weights` (src/portfolio_optimizer.py,
lines 35-61): invert the 2x2 covariance (`np.linalg.inv` raises exactly
on a singular matrix) and return
`inv_cov @ ones / (ones @ inv_cov @ ones)` as a pair. -/
noncomputable def min_variance_weights (vol_eurusd vol_usdjpy corr_eurusd_usdjpy : ℝ) :
    Except OptError (ℝ × ℝ) :=
  let cov := fxCov vol_eurusd vol_usdjpy corr_eurusd_usdjpy
  if cov.det = 0 then .error .singularCovariance
  else
    let inv_cov := cov⁻¹
    let denom := Matrix.vecMul ones2 inv_cov ⬝ᵥ ones2
    let weights : Fin 2 → ℝ := fun i => (inv_cov *ᵥ ones2) i / denom
    .ok (weights 0, weights 1)

/-- Model of `math.sqrt`: raises `ValueError` (math domain error) on a
negative argument, otherwise returns the real square root. -/
noncomputable def mathSqrt (x : ℝ) : Except OptError ℝ :=
  if x < 0 then .error .mathDomainError else .ok (Real.sqrt x)

/-- Embedding of `portfolio_volatility` (src/portfolio_optimizer.py,
lines 64-78): quadratic form `w @ cov @ w` with the sign-flipped
correlation, clamped below at 0, then `math.sqrt`. -/
noncomputable def portfolio_volatility (weight_eur weight_jpy vol_eurusd vol_usdjpy
    corr_eurusd_usdjpy : ℝ) : Except OptError ℝ :=
  let cov := fxCov vol_eurusd vol_usdjpy corr_eurusd_usdjpy
  let w : Fin 2 → ℝ := ![weight_eur, weight_jpy]
  let var := Matrix.vecMul w cov ⬝ᵥ w
  mathSqrt (max var 0)

theorem npSqrt_of_nonneg {x : ℝ} (h : 0 ≤ x) : npSqrt x = some (Real.sqrt x) := by
  simp [npSqrt, not_lt.mpr h]

theorem npSqrt_of_neg {x : ℝ} (h : x < 0) : npSqrt x = none := by
  simp [npSqrt, h]

theorem portfolio_stats_weights (w mu : Fin 3 → ℝ) (cov : Matrix (Fin 3) (Fin 3) ℝ)
    (rf : ℝ) : (portfolio_stats w mu cov rf).weights = w := rfl

theorem portfolio_stats_expected_return (w mu : Fin 3 → ℝ)
    (cov : Matrix (Fin 3) (Fin 3) ℝ) (rf : ℝ) :
    (portfolio_stats w mu cov rf).expected_return = w ⬝ᵥ mu := rfl

theorem portfolio_stats_volatility (w mu : Fin 3 → ℝ) (cov : Matrix (Fin 3) (Fin 3) ℝ)
    (rf : ℝ) :
    (portfolio_stats w mu cov rf).volatility = npSqrt (Matrix.vecMul w cov ⬝ᵥ w) := rfl

theorem portfolio_stats_sharpe_eq (w mu : Fin 3 → ℝ) (cov : Matrix (Fin 3) (Fin 3) ℝ)
    (rf : ℝ) :
    (portfolio_stats w mu cov rf).sharpe_ratio =
      match npSqrt (Matrix.vecMul w cov ⬝ᵥ w) with
      | none => Sharpe.nan
      | some v => if v ≤ 0 then Sharpe.negInf else Sharpe.val ((w ⬝ᵥ mu - rf) / v) := rfl

theorem portfolio_stats_sharpe_of_nonneg (w mu : Fin 3 → ℝ)
    (cov : Matrix (Fin 3) (Fin 3) ℝ) (rf : ℝ)
    (h : 0 ≤ Matrix.vecMul w cov ⬝ᵥ w) :
    (portfolio_stats w mu cov rf).sharpe_ratio =
      if Real.sqrt (Matrix.vecMul w cov ⬝ᵥ w) ≤ 0 then Sharpe.negInf
      else Sharpe.val ((w ⬝ᵥ mu - rf) / Real.sqrt (Matrix.vecMul w cov ⬝ᵥ w)) := by
  rw [portfolio_stats_sharpe_eq, npSqrt_of_nonneg h]

theorem portfolio_stats_noNan (w mu : Fin 3 → ℝ) (cov : Matrix (Fin 3) (Fin 3) ℝ)
    (rf : ℝ) (h : 0 ≤ Matrix.vecMul w cov ⬝ᵥ w) :
    noNan (portfolio_stats w mu cov rf).sharpe_ratio := by
  rw [portfolio_stats_sharpe_of_nonneg w mu cov rf h]
  split <;> trivial

theorem portfolio_stats_sharpe_nan (w mu : Fin 3 → ℝ) (cov : Matrix (Fin 3) (Fin 3) ℝ)
    (rf : ℝ) (h : Matrix.vecMul w cov ⬝ᵥ w < 0) :
    (portfolio_stats w mu cov rf).sharpe_ratio = Sharpe.nan := by
  rw [portfolio_stats_sharpe_eq, npSqrt_of_neg h]

theorem initBest_noNan (mu : Fin 3 → ℝ) (cov : Matrix (Fin 3) (Fin 3) ℝ) :
    noNan (initBest mu cov).sharpe_ratio := trivial

theorem foldl_stepBest_spec (mu : Fin 3 → ℝ) (cov : Matrix (Fin 3) (Fin 3) ℝ) (rf : ℝ) :
    ∀ (l : List (ℚ × ℚ × ℚ)) (b : MarkowitzResult),
      noNan b.sharpe_ratio →
      (∀ c ∈ l, noNan (portfolio_stats (castW c) mu cov rf).sharpe_ratio) →
      noNan ((l.foldl (stepBest mu cov rf) b).sharpe_ratio) ∧
      sharpeGe ((l.foldl (stepBest mu cov rf) b).sharpe_ratio) b.sharpe_ratio ∧
      ∀ c ∈ l, sharpeGe ((l.foldl (stepBest mu cov rf) b).sharpe_ratio)
        (portfolio_stats (castW c) mu cov rf).sharpe_ratio := by
  intro l
  induction l with
  | nil => exact fun b hb _ => ⟨hb, sharpeGe_refl _, by simp⟩
  | cons c l ih =>
    intro b hb hl
    have hs : noNan (portfolio_stats (castW c) mu cov rf).sharpe_ratio :=
      hl c (List.mem_cons_self _ _)
    have hl' : ∀ c' ∈ l, noNan (portfolio_stats (castW c') mu cov rf).sharpe_ratio :=
      fun c' hc' => hl c' (List.mem_cons_of_mem _ hc')
    have hkey : noNan (stepBest mu cov rf b c).sharpe_ratio ∧
        sharpeGe (stepBest mu cov rf b c).sharpe_ratio b.sharpe_ratio ∧
        sharpeGe (stepBest mu cov rf b c).sharpe_ratio
          (portfolio_stats (castW c) mu cov rf).sharpe_ratio := by
      simp only [stepBest]
      split
      · rename_i hgt
        exact ⟨hs, sharpeGe_of_gt hgt, sharpeGe_refl _⟩
      · rename_i hgt
        rcases sharpeGt_or_ge _ _ hs hb with h | h
        · exact absurd h hgt
        · exact ⟨hb, sharpeGe_refl _, h⟩
    obtain ⟨hA, hB, hC⟩ := hkey
    obtain ⟨h1, h2, h3⟩ := ih (stepBest mu cov rf b c) hA hl'
    have hfold : (c :: l).foldl (stepBest mu cov rf) b =
        l.foldl (stepBest mu cov rf) (stepBest mu cov rf b c) := rfl
    rw [hfold]
    refine ⟨h1, sharpeGe_trans h1 hA hb h2 hB, ?_⟩
    intro c' hc'
    rcases List.mem_cons.mp hc' with rfl | hc'
    · exact sharpeGe_trans h1 hA hs h2 hC
    · exact h3 c' hc'

theorem pyRound_intCast (n : ℤ) : pyRound (n : ℚ) = n := by
  simp [pyRound, Int.floor_intCast]

theorem pyRound_zero : pyRound 0 = 0 := by
  simpa using pyRound_intCast 0

theorem mem_linspace_iff {a b x : ℚ} {n : ℕ} :
    x ∈ linspace a b n ↔ ∃ i < n, x = a + i * ((b - a) / ((n : ℚ) - 1)) := by
  constructor
  · intro hx
    obtain ⟨i, hi, hfi⟩ := List.mem_map.mp hx
    exact ⟨i, List.mem_range.mp hi, hfi.symm⟩
  · rintro ⟨i, hi, rfl⟩
    exact List.mem_map.mpr ⟨i, List.mem_range.mpr hi, rfl⟩

theorem linspace_nonneg {b : ℚ} {n : ℕ} (hb : 0 ≤ b) :
    ∀ x ∈ linspace 0 b n, 0 ≤ x := by
  intro x hx
  obtain ⟨i, hi, rfl⟩ := mem_linspace_iff.mp hx
  rcases le_or_lt ((n : ℚ) - 1) 0 with h | h
  · rcases eq_or_lt_of_le h with h0 | h0
    · simp [h0]
    · have hn0 : (n : ℚ) < 1 := by linarith
      have : n = 0 := by exact_mod_cast Nat.lt_one_iff.mp (by exact_mod_cast hn0)
      omega
  · have h1 : 0 ≤ (b - 0) / ((n : ℚ) - 1) := div_nonneg (by simpa using hb) h.le
    have h2 : 0 ≤ (i : ℚ) * ((b - 0) / ((n : ℚ) - 1)) :=
      mul_nonneg (by positivity) h1
    linarith

theorem linspace01_le_one {n : ℕ} (hn : 2 ≤ n) :
    ∀ x ∈ linspace 0 1 n, x ≤ 1 := by
  intro x hx
  obtain ⟨i, hi, rfl⟩ := mem_linspace_iff.mp hx
  have hpos : (0 : ℚ) < (n : ℚ) - 1 := by
    have : (2 : ℚ) ≤ (n : ℚ) := by exact_mod_cast hn
    linarith
  have hle : (i : ℚ) ≤ (n : ℚ) - 1 := by
    have : (i : ℚ) + 1 ≤ (n : ℚ) := by exact_mod_cast hi
    linarith
  have : (i : ℚ) * ((1 - 0) / ((n : ℚ) - 1)) ≤ 1 := by
    rw [show (1 : ℚ) - 0 = 1 by norm_num, mul_one_div, div_le_one hpos]
    exact hle
  linarith

theorem zero_mem_linspace (b : ℚ) {n : ℕ} (hn : 1 ≤ n) : (0 : ℚ) ∈ linspace 0 b n := by
  rw [mem_linspace_iff]
  exact ⟨0, by omega, by norm_num⟩

theorem one_mem_linspace01 {n : ℕ} (hn : 2 ≤ n) : (1 : ℚ) ∈ linspace 0 1 n := by
  rw [mem_linspace_iff]
  refine ⟨n - 1, by omega, ?_⟩
  have hne : (n : ℚ) - 1 ≠ 0 := by
    have : (2 : ℚ) ≤ (n : ℚ) := by exact_mod_cast hn
    linarith
  have hc : ((n - 1 : ℕ) : ℚ) = (n : ℚ) - 1 := by
    have : 1 ≤ n := by omega
    push_cast [this]
    ring
  rw [hc]
  field_simp

theorem last_mem_linspace01 {n : ℕ} (hn : 2 ≤ n) :
    ∀ i < n, (i : ℚ) / ((n : ℚ) - 1) ∈ linspace 0 1 n := by
  intro i hi
  rw [mem_linspace_iff]
  exact ⟨i, hi, by ring⟩

theorem mem_gridCandidates_iff {res : ℕ} {c : ℚ × ℚ × ℚ} :
    c ∈ gridCandidates res ↔
      ∃ w1 ∈ linspace 0 1 res,
        ∃ w2 ∈ linspace 0 (1 - w1)
          (max 2 ((pyRound ((1 - w1) * ((res : ℚ) - 1)) + 1).toNat)),
          c = (w1, w2, 1 - w1 - w2) := by
  constructor
  · intro hc
    obtain ⟨w1, h1, hc⟩ := List.mem_flatMap.mp hc
    obtain ⟨w2, h2, rfl⟩ := List.mem_map.mp hc
    exact ⟨w1, h1, w2, h2, rfl⟩
  · rintro ⟨w1, h1, w2, h2, rfl⟩
    exact List.mem_flatMap.mpr ⟨w1, h1, List.mem_map.mpr ⟨w2, h2, rfl⟩⟩

theorem n2_at_zero {res : ℕ} (h : 3 ≤ res) :
    max 2 ((pyRound ((1 - (0 : ℚ)) * ((res : ℚ) - 1)) + 1).toNat) = res := by
  have h1 : (1 - (0 : ℚ)) * ((res : ℚ) - 1) = (((res : ℤ) - 1 : ℤ) : ℚ) := by
    push_cast
    ring
  rw [h1, pyRound_intCast]
  omega

theorem corner100_mem_grid {res : ℕ} (h : 3 ≤ res) :
    ((1 : ℚ), (0 : ℚ), (0 : ℚ)) ∈ gridCandidates res := by
  rw [mem_gridCandidates_iff]
  refine ⟨1, one_mem_linspace01 (by omega), 0, ?_, by norm_num⟩
  exact zero_mem_linspace _ (le_trans (by norm_num) (Nat.le_max_left 2 _))

theorem corner001_mem_grid {res : ℕ} (h : 3 ≤ res) :
    ((0 : ℚ), (0 : ℚ), (1 : ℚ)) ∈ gridCandidates res := by
  rw [mem_gridCandidates_iff]
  refine ⟨0, zero_mem_linspace _ (by omega), 0, ?_, by norm_num⟩
  exact zero_mem_linspace _ (le_trans (by norm_num) (Nat.le_max_left 2 _))

theorem corner010_mem_grid {res : ℕ} (h : 3 ≤ res) :
    ((0 : ℚ), (1 : ℚ), (0 : ℚ)) ∈ gridCandidates res := by
  rw [mem_gridCandidates_iff]
  refine ⟨0, zero_mem_linspace _ (by omega), 1, ?_, by norm_num⟩
  rw [n2_at_zero h]
  have : (1 : ℚ) - 0 = 1 := by norm_num
  rw [this]
  exact one_mem_linspace01 (by omega)

theorem gridCandidates_props {res : ℕ} (h : 3 ≤ res) :
    ∀ c ∈ gridCandidates res, 0 ≤ c.1 ∧ 0 ≤ c.2.1 ∧ c.1 + c.2.1 + c.2.2 = 1 := by
  intro c hc
  obtain ⟨w1, h1, w2, h2, rfl⟩ := mem_gridCandidates_iff.mp hc
  have hw1 : 0 ≤ w1 := linspace_nonneg (by norm_num) w1 h1
  have hw1' : w1 ≤ 1 := linspace01_le_one (by omega) w1 h1
  have hw2 : 0 ≤ w2 := linspace_nonneg (by linarith) w2 h2
  exact ⟨hw1, hw2, by ring⟩

theorem gridCandidates_eq_specCandidates (res : ℕ) :
    gridCandidates res = specCandidates res := by
  unfold gridCandidates specCandidates linspace
  rw [List.flatMap_map]
  apply List.flatMap_congr
  intro i _
  have hw1 : 0 + (i : ℚ) * ((1 - 0) / ((res : ℚ) - 1)) = (i : ℚ) / ((res : ℚ) - 1) := by
    ring
  rw [hw1]
  rw [List.map_map]
  apply List.map_congr_left
  intro j _
  simp only [Function.comp, Prod.mk.injEq]
  refine ⟨by ring, by ring, by ring⟩

theorem symCheck_one : symCheck 1 := by
  intro i j
  have h : (1 : Matrix (Fin 3) (Fin 3) ℝ) i j = (1 : Matrix (Fin 3) (Fin 3) ℝ) j i := by
    simp [Matrix.one_apply, eq_comm]
  rw [h, sub_self, abs_zero]
  positivity

theorem symCheck_zero : symCheck 0 := by
  intro i j
  simp [Matrix.zero_apply]
  norm_num

theorem dot_self_nonneg (w : Fin 3 → ℝ) : 0 ≤ w ⬝ᵥ w := by
  unfold Matrix.dotProduct
  exact Finset.sum_nonneg fun i _ => mul_self_nonneg (w i)

theorem qform_e1 (cov : Matrix (Fin 3) (Fin 3) ℝ) :
    Matrix.vecMul ![1, 0, 0] cov ⬝ᵥ (![1, 0, 0] : Fin 3 → ℝ) = cov 0 0 := by
  simp [Matrix.vecMul, Matrix.dotProduct, Fin.sum_univ_three]

theorem dot_e1_e1 : (![1, 0, 0] : Fin 3 → ℝ) ⬝ᵥ ![1, 0, 0] = 1 := by
  simp [Matrix.dotProduct, Fin.sum_univ_three]

theorem castW_100 : castW ((1 : ℚ), (0 : ℚ), (0 : ℚ)) = ![1, 0, 0] := by
  funext i
  fin_cases i <;> simp [castW]

theorem castW_010 : castW ((0 : ℚ), (1 : ℚ), (0 : ℚ)) = ![0, 1, 0] := by
  funext i
  fin_cases i <;> simp [castW]

theorem castW_001 : castW ((0 : ℚ), (0 : ℚ), (1 : ℚ)) = ![0, 0, 1] := by
  funext i
  fin_cases i <;> simp [castW]

theorem sharpeGt_negInf_left (b : Sharpe) : ¬ sharpeGt Sharpe.negInf b := by
  cases b <;> simp [sharpeGt]

theorem portfolio_stats_sharpe_zero_var (w mu : Fin 3 → ℝ)
    (cov : Matrix (Fin 3) (Fin 3) ℝ) (rf : ℝ)
    (h : Matrix.vecMul w cov ⬝ᵥ w = 0) :
    (portfolio_stats w mu cov rf).sharpe_ratio = Sharpe.negInf := by
  rw [portfolio_stats_sharpe_eq, h, npSqrt_of_nonneg le_rfl]
  simp [Real.sqrt_zero]

theorem foldl_stepBest_of_all_negInf (mu : Fin 3 → ℝ) (cov : Matrix (Fin 3) (Fin 3) ℝ)
    (rf : ℝ) :
    ∀ (l : List (ℚ × ℚ × ℚ)) (b : MarkowitzResult),
      (∀ c ∈ l, (portfolio_stats (castW c) mu cov rf).sharpe_ratio = Sharpe.negInf) →
      l.foldl (stepBest mu cov rf) b = b := by
  intro l
  induction l with
  | nil => intro b _; rfl
  | cons c l ih =>
    intro b hall
    have hc : (portfolio_stats (castW c) mu cov rf).sharpe_ratio = Sharpe.negInf :=
      hall c (List.mem_cons_self _ _)
    have hstep : stepBest mu cov rf b c = b := by
      simp only [stepBest]
      rw [if_neg]
      rw [hc]
      exact sharpeGt_negInf_left _
    calc (c :: l).foldl (stepBest mu cov rf) b
        = l.foldl (stepBest mu cov rf) (stepBest mu cov rf b c) := rfl
      _ = l.foldl (stepBest mu cov rf) b := by rw [hstep]
      _ = b := ih b (fun c' hc' => hall c' (List.mem_cons_of_mem _ hc'))

/-- Claim C1 counterexample: for the symmetric but non-PSD covariance
`[[-1,0,0],[0,0,0],[0,0,0]]` and weights `[1,0,0]`, the quadratic form is
negative and `portfolio_stats` returns a NaN volatility (`none`) — not
`sqrt(max(variance, 0)) = 0` as claimed, so the volatility is not
"never NaN". -/
theorem portfolio_stats_nan_volatility_cex :
    Matrix.vecMul ![1, 0, 0] !![(-1 : ℝ), 0, 0; 0, 0, 0; 0, 0, 0] ⬝ᵥ
      (![1, 0, 0] : Fin 3 → ℝ) < 0 ∧
    (portfolio_stats ![1, 0, 0] ![0, 0, 0] !![(-1 : ℝ), 0, 0; 0, 0, 0; 0, 0, 0]
      0).volatility = none := by
  have hq : Matrix.vecMul ![1, 0, 0] !![(-1 : ℝ), 0, 0; 0, 0, 0; 0, 0, 0] ⬝ᵥ
      (![1, 0, 0] : Fin 3 → ℝ) = -1 := by
    rw [qform_e1]
    norm_num
  constructor
  · rw [hq]
    norm_num
  · rw [portfolio_stats_volatility, hq, npSqrt_of_neg (by norm_num)]

/-- Claim C1 amended: `portfolio_stats` applies no clamping.  When the quadratic
form `w·cov·w` is nonnegative the volatility equals `sqrt(w·cov·w)` and is
nonnegative; when the quadratic form is negative the volatility is NaN. -/
theorem portfolio_stats_vol_characterization (w mu : Fin 3 → ℝ)
    (cov : Matrix (Fin 3) (Fin 3) ℝ) (rf : ℝ) :
    (0 ≤ Matrix.vecMul w cov ⬝ᵥ w →
      (portfolio_stats w mu cov rf).volatility =
        some (Real.sqrt (Matrix.vecMul w cov ⬝ᵥ w)) ∧
      0 ≤ Real.sqrt (Matrix.vecMul w cov ⬝ᵥ w))
    ∧ (Matrix.vecMul w cov ⬝ᵥ w < 0 →
        (portfolio_stats w mu cov rf).volatility = none) := by
  constructor
  · intro h
    exact ⟨by rw [portfolio_stats_volatility, npSqrt_of_nonneg h], Real.sqrt_nonneg _⟩
  · intro h
    rw [portfolio_stats_volatility, npSqrt_of_neg h]

/-- Claim C1 witness: at weights `[1,0,0]` and the identity covariance the
quadratic form is `1 ≥ 0` and the volatility is `sqrt 1`. -/
theorem portfolio_stats_vol_characterization_witness :
    (portfolio_stats ![1, 0, 0] ![0, 0, 0] 1 0).volatility =
      some (Real.sqrt (Matrix.vecMul ![1, 0, 0] (1 : Matrix (Fin 3) (Fin 3) ℝ) ⬝ᵥ
        (![1, 0, 0] : Fin 3 → ℝ))) :=
  ((portfolio_stats_vol_characterization ![1, 0, 0] ![0, 0, 0] 1 0).1
    (by rw [Matrix.vecMul_one]; exact dot_self_nonneg _)).1

/-- Claim C2: for `grid_size ≥ 3` and validated inputs the grid-search solver
returns the fold of the best-so-far update over exactly the
specification's candidate list (`w1` over `grid_size` uniform points of
`[0,1]`; `w2` over `max(2, round((1-w1)(grid_size-1))+1)` uniform points
of `[0, 1-w1]`; `w3 = 1-w1-w2`), every candidate has `w1 ≥ 0`, `w2 ≥ 0`
and `w1+w2+w3 = 1` exactly; for `grid_size < 3` it fails with
`invalidResolution`. -/
theorem grid_search_enumeration (mu : Fin 3 → ℝ) (cov : Matrix (Fin 3) (Fin 3) ℝ)
    (rf : ℝ) (res : ℕ) (hSym : symCheck cov) :
    (3 ≤ res →
      optimize_sharpe_long_only mu cov rf res =
        .ok ((specCandidates res).foldl (stepBest mu cov rf) (initBest mu cov)) ∧
      ∀ c ∈ specCandidates res, 0 ≤ c.1 ∧ 0 ≤ c.2.1 ∧ c.1 + c.2.1 + c.2.2 = 1)
    ∧ (res < 3 →
        optimize_sharpe_long_only mu cov rf res = .error .invalidResolution) := by
  constructor
  · intro h3
    constructor
    · unfold optimize_sharpe_long_only
      rw [if_neg (not_not_intro hSym), if_neg (by omega : ¬ res < 3),
        gridCandidates_eq_specCandidates]
    · intro c hc
      rw [← gridCandidates_eq_specCandidates] at hc
      exact gridCandidates_props h3 c hc
  · intro h3
    unfold optimize_sharpe_long_only
    rw [if_neg (not_not_intro hSym), if_pos h3]

/-- Claim C2 witness: resolution 2 is rejected with `invalidResolution`. -/
theorem grid_search_enumeration_witness :
    optimize_sharpe_long_only (fun _ => 0) 1 0 2 = .error .invalidResolution :=
  (grid_search_enumeration (fun _ => 0) 1 0 2 symCheck_one).2 (by norm_num)

/-- Claim C3: for validated PSD inputs and `grid_size ≥ 3` the grid-search
result's Sharpe ratio is at least the Sharpe ratio of each of the three
simplex corners, because all three corners are evaluated candidates. -/
theorem grid_search_beats_corners (mu : Fin 3 → ℝ) (cov : Matrix (Fin 3) (Fin 3) ℝ)
    (rf : ℝ) (res : ℕ) (hSym : symCheck cov) (h3 : 3 ≤ res)
    (hPSD : ∀ w : Fin 3 → ℝ, 0 ≤ Matrix.vecMul w cov ⬝ᵥ w) :
    ∃ r, optimize_sharpe_long_only mu cov rf res = .ok r ∧
      sharpeGe r.sharpe_ratio (portfolio_stats ![1, 0, 0] mu cov rf).sharpe_ratio ∧
      sharpeGe r.sharpe_ratio (portfolio_stats ![0, 1, 0] mu cov rf).sharpe_ratio ∧
      sharpeGe r.sharpe_ratio (portfolio_stats ![0, 0, 1] mu cov rf).sharpe_ratio := by
  obtain ⟨-, -, hall⟩ := foldl_stepBest_spec mu cov rf (gridCandidates res)
    (initBest mu cov) (initBest_noNan mu cov)
    (fun c _ => portfolio_stats_noNan _ _ _ _ (hPSD _))
  refine ⟨(gridCandidates res).foldl (stepBest mu cov rf) (initBest mu cov),
    ?_, ?_, ?_, ?_⟩
  · unfold optimize_sharpe_long_only
    rw [if_neg (not_not_intro hSym), if_neg (by omega : ¬ res < 3)]
  · have h := hall _ (corner100_mem_grid h3)
    rwa [castW_100] at h
  · have h := hall _ (corner010_mem_grid h3)
    rwa [castW_010] at h
  · have h := hall _ (corner001_mem_grid h3)
    rwa [castW_001] at h

/-- Claim C3 witness: identity covariance (symmetric, PSD), zero returns,
resolution 3. -/
theorem grid_search_beats_corners_witness :
    ∃ r, optimize_sharpe_long_only (fun _ => 0) 1 0 3 = .ok r ∧
      sharpeGe r.sharpe_ratio
        (portfolio_stats ![1, 0, 0] (fun _ => 0) 1 0).sharpe_ratio ∧
      sharpeGe r.sharpe_ratio
        (portfolio_stats ![0, 1, 0] (fun _ => 0) 1 0).sharpe_ratio ∧
      sharpeGe r.sharpe_ratio
        (portfolio_stats ![0, 0, 1] (fun _ => 0) 1 0).sharpe_ratio :=
  grid_search_beats_corners (fun _ => 0) 1 0 3 symCheck_one (by norm_num)
    (fun w => by rw [Matrix.vecMul_one]; exact dot_self_nonneg w)

/-- Claim C4: the loop body keeps the best-so-far record whenever the new
candidate's Sharpe ratio is not strictly greater, and when every
evaluated candidate has Sharpe ratio `-inf` the solver returns the
initialization record: weights `[1,0,0]`, expected return `mu[0]`,
volatility `sqrt(cov[0][0])`, Sharpe ratio `-inf`. -/
theorem grid_search_tie_keeping (mu : Fin 3 → ℝ) (cov : Matrix (Fin 3) (Fin 3) ℝ)
    (rf : ℝ) (res : ℕ) (hSym : symCheck cov) (h3 : 3 ≤ res)
    (hAll : ∀ c ∈ gridCandidates res,
      (portfolio_stats (castW c) mu cov rf).sharpe_ratio = Sharpe.negInf) :
    (∀ (b : MarkowitzResult) (c : ℚ × ℚ × ℚ),
        ¬ sharpeGt (portfolio_stats (castW c) mu cov rf).sharpe_ratio b.sharpe_ratio →
        stepBest mu cov rf b c = b)
    ∧ optimize_sharpe_long_only mu cov rf res =
        .ok { weights := ![1, 0, 0], expected_return := mu 0,
              volatility := some (Real.sqrt (cov 0 0)),
              sharpe_ratio := Sharpe.negInf } := by
  constructor
  · intro b c h
    simp only [stepBest]
    rw [if_neg h]
  · have h100 := hAll _ (corner100_mem_grid h3)
    rw [castW_100] at h100
    have hq0 : 0 ≤ cov 0 0 := by
      by_contra hneg
      push_neg at hneg
      have hnan := portfolio_stats_sharpe_nan ![1, 0, 0] mu cov rf
        (by rw [qform_e1]; exact hneg)
      rw [hnan] at h100
      exact Sharpe.noConfusion h100
    unfold optimize_sharpe_long_only
    rw [if_neg (not_not_intro hSym), if_neg (by omega : ¬ res < 3),
      foldl_stepBest_of_all_negInf mu cov rf _ _ hAll]
    unfold initBest
    rw [npSqrt_of_nonneg hq0]

/-- Claim C4 witness: zero returns and the zero covariance make every candidate's
Sharpe ratio `-inf`, and the solver returns the initialization record. -/
theorem grid_search_tie_keeping_witness :
    optimize_sharpe_long_only (fun _ => 0) 0 0 3 =
      .ok { weights := ![1, 0, 0], expected_return := 0,
            volatility := some (Real.sqrt 0), sharpe_ratio := Sharpe.negInf } :=
  (grid_search_tie_keeping (fun _ => 0) 0 0 3 symCheck_zero (by norm_num)
    (fun c _ => portfolio_stats_sharpe_zero_var _ _ _ _ (by simp))).2

/-- Claim C8: whenever the volatility is a (non-NaN) value `v`, the Sharpe ratio
is `(expected_return - rf) / v` for `v > 0` and the sentinel `-inf` for
`v = 0`; and the sentinel is strictly below every finite Sharpe ratio. -/
theorem portfolio_stats_sharpe_characterization (w mu : Fin 3 → ℝ)
    (cov : Matrix (Fin 3) (Fin 3) ℝ) (rf : ℝ) :
    (∀ v : ℝ, (portfolio_stats w mu cov rf).volatility = some v →
      (0 < v → (portfolio_stats w mu cov rf).sharpe_ratio =
        Sharpe.val (((portfolio_stats w mu cov rf).expected_return - rf) / v)) ∧
      (v = 0 → (portfolio_stats w mu cov rf).sharpe_ratio = Sharpe.negInf))
    ∧ ∀ s : ℝ, sharpeGt (Sharpe.val s) Sharpe.negInf := by
  refine ⟨?_, fun s => trivial⟩
  intro v hv
  rw [portfolio_stats_volatility] at hv
  constructor
  · intro hvpos
    rw [portfolio_stats_sharpe_eq, hv]
    show (if v ≤ 0 then Sharpe.negInf else Sharpe.val ((w ⬝ᵥ mu - rf) / v)) = _
    rw [if_neg (not_le.mpr hvpos)]
    rfl
  · intro hv0
    rw [portfolio_stats_sharpe_eq, hv]
    show (if v ≤ 0 then Sharpe.negInf else Sharpe.val ((w ⬝ᵥ mu - rf) / v)) = _
    rw [if_pos (le_of_eq hv0)]

/-- Claim C8 witness: weights `[1,0,0]`, identity covariance, `mu = [2,0,0]`,
`rf = 0` give volatility 1 and Sharpe `(expected_return - 0) / 1`. -/
theorem portfolio_stats_sharpe_characterization_witness :
    (portfolio_stats ![1, 0, 0] ![2, 0, 0] 1 0).sharpe_ratio =
      Sharpe.val (((portfolio_stats ![1, 0, 0] ![2, 0, 0] 1 0).expected_return - 0) / 1) :=
  ((portfolio_stats_sharpe_characterization ![1, 0, 0] ![2, 0, 0] 1 0).1 1
    (by rw [portfolio_stats_volatility, Matrix.vecMul_one, dot_e1_e1,
      npSqrt_of_nonneg (by norm_num), Real.sqrt_one])).1 one_pos

/-- Claim C5: whenever the analytical solver succeeds it returns the stats of
`raw / (1·raw)` where `raw` solves `cov·raw = mu - rf·1`, and those
weights sum to exactly 1. -/
theorem unconstrained_weights_characterization (mu : Fin 3 → ℝ)
    (cov : Matrix (Fin 3) (Fin 3) ℝ) (rf : ℝ) (hSym : symCheck cov)
    (hdet : cov.det ≠ 0) (hden : ¬ |denomOf mu cov rf| < 1e-14) :
    optimize_sharpe_unconstrained mu cov rf =
      .ok (portfolio_stats (fun i => rawSol mu cov rf i / denomOf mu cov rf) mu cov rf)
    ∧ cov *ᵥ rawSol mu cov rf = mu - rf • ones3
    ∧ ∑ i, rawSol mu cov rf i / denomOf mu cov rf = 1 := by
  refine ⟨?_, ?_, ?_⟩
  · unfold optimize_sharpe_unconstrained
    rw [if_neg (not_not_intro hSym), if_neg hdet, if_neg hden]
  · unfold rawSol
    rw [Matrix.mulVec_mulVec, Matrix.mul_nonsing_inv cov (isUnit_iff_ne_zero.mpr hdet),
      Matrix.one_mulVec]
  · have hd : denomOf mu cov rf ≠ 0 := by
      intro h0
      apply hden
      rw [h0, abs_zero]
      norm_num
    have hsum : ∑ i, rawSol mu cov rf i = denomOf mu cov rf := by
      unfold denomOf ones3
      simp [Matrix.dotProduct]
    rw [← Finset.sum_div, hsum, div_self hd]

theorem denomOf_example : denomOf ![1, 1, 1] 1 0 = 3 := by
  unfold denomOf rawSol ones3
  rw [show (![1, 1, 1] : Fin 3 → ℝ) - (0 : ℝ) • (fun _ => (1 : ℝ)) = ![1, 1, 1] from
    by simp, inv_one, Matrix.one_mulVec]
  simp [Matrix.dotProduct, Fin.sum_univ_three]
  norm_num

/-- Claim C5 witness: identity covariance with `mu = [1,1,1]`, `rf = 0`: the
denominator is 3 and the returned weights sum to 1. -/
theorem unconstrained_weights_characterization_witness :
    ∑ i, rawSol ![1, 1, 1] 1 0 i / denomOf ![1, 1, 1] 1 0 = 1 :=
  (unconstrained_weights_characterization ![1, 1, 1] 1 0 symCheck_one
    (by rw [Matrix.det_one]; norm_num)
    (by rw [denomOf_example]; norm_num)).2.2

/-- Claim C6: on validated inputs the analytical solver fails with
`singularCovariance` exactly when the linear solve detects a singular
matrix, with `degenerateNormalization` when `|1·raw| < 1e-14`, and
succeeds otherwise (no other failure; all failures terminal). -/
theorem unconstrained_failure_modes (mu : Fin 3 → ℝ)
    (cov : Matrix (Fin 3) (Fin 3) ℝ) (rf : ℝ) (hSym : symCheck cov) :
    (cov.det = 0 →
      optimize_sharpe_unconstrained mu cov rf = .error .singularCovariance)
    ∧ (cov.det ≠ 0 → |denomOf mu cov rf| < 1e-14 →
        optimize_sharpe_unconstrained mu cov rf = .error .degenerateNormalization)
    ∧ (cov.det ≠ 0 → ¬ |denomOf mu cov rf| < 1e-14 →
        ∃ r, optimize_sharpe_unconstrained mu cov rf = .ok r) := by
  refine ⟨?_, ?_, ?_⟩
  · intro h0
    unfold optimize_sharpe_unconstrained
    rw [if_neg (not_not_intro hSym), if_pos h0]
  · intro hdet hden
    unfold optimize_sharpe_unconstrained
    rw [if_neg (not_not_intro hSym), if_neg hdet, if_pos hden]
  · intro hdet hden
    refine ⟨portfolio_stats (fun i => rawSol mu cov rf i / denomOf mu cov rf) mu cov rf, ?_⟩
    unfold optimize_sharpe_unconstrained
    rw [if_neg (not_not_intro hSym), if_neg hdet, if_neg hden]

/-- Claim C6 witness: the zero covariance is symmetric and singular, and the
solver reports `singularCovariance`. -/
theorem unconstrained_failure_modes_witness :
    optimize_sharpe_unconstrained (fun _ => 0) 0 0 = .error .singularCovariance :=
  (unconstrained_failure_modes (fun _ => 0) 0 0 symCheck_zero).1
    (Matrix.det_zero inferInstance)

theorem fxCov_entries (va vb c : ℝ) :
    fxCov va vb c 0 0 = va ^ 2 ∧ fxCov va vb c 0 1 = -c * va * vb ∧
    fxCov va vb c 1 0 = -c * va * vb ∧ fxCov va vb c 1 1 = vb ^ 2 := by
  refine ⟨?_, ?_, ?_, ?_⟩ <;> simp [fxCov]

theorem fxCov_example_inv :
    (fxCov 0.1 0.1 0)⁻¹ = !![(100 : ℝ), 0; 0, 100] := by
  apply Matrix.inv_eq_right_inv
  ext i j
  fin_cases i <;> fin_cases j <;>
    norm_num [fxCov, Matrix.mul_apply, Fin.sum_univ_two, Matrix.one_apply]

theorem fxCov_example_det : (fxCov 0.1 0.1 0).det = 0.0001 := by
  rw [Matrix.det_fin_two]
  obtain ⟨h1, h2, h3, h4⟩ := fxCov_entries 0.1 0.1 0
  rw [h1, h2, h3, h4]
  norm_num

/-- Claim C7: the FX hedge covariance uses the negated input correlation in its
off-diagonal entries, and in the symmetric uncorrelated case
(`vol = 0.10` each, `corr = 0`) the minimum-variance weights are exactly
`(1/2, 1/2)` and the portfolio volatility is exactly `0.1 / sqrt 2`. -/
theorem fx_hedge_symmetric_case :
    (∀ va vb c : ℝ, fxCov va vb c 0 1 = -c * va * vb ∧
      fxCov va vb c 1 0 = -c * va * vb)
    ∧ min_variance_weights 0.1 0.1 0 = .ok (1 / 2, 1 / 2)
    ∧ portfolio_volatility (1 / 2) (1 / 2) 0.1 0.1 0 = .ok (0.1 / Real.sqrt 2) := by
  refine ⟨fun va vb c => ⟨(fxCov_entries va vb c).2.1, (fxCov_entries va vb c).2.2.1⟩,
    ?_, ?_⟩
  · unfold min_variance_weights
    rw [if_neg (by rw [fxCov_example_det]; norm_num)]
    rw [fxCov_example_inv]
    norm_num [Matrix.mulVec, Matrix.vecMul, Matrix.dotProduct, Fin.sum_univ_two, ones2]
  · have hdef : portfolio_volatility (1 / 2) (1 / 2) 0.1 0.1 0 =
        mathSqrt (max (Matrix.vecMul ![(1 : ℝ) / 2, 1 / 2] (fxCov 0.1 0.1 0) ⬝ᵥ
          (![(1 : ℝ) / 2, 1 / 2] : Fin 2 → ℝ)) 0) := rfl
    have hvar : Matrix.vecMul ![(1 : ℝ) / 2, 1 / 2] (fxCov 0.1 0.1 0) ⬝ᵥ
        (![(1 : ℝ) / 2, 1 / 2] : Fin 2 → ℝ) = 0.005 := by
      norm_num [fxCov, Matrix.vecMul, Matrix.dotProduct, Fin.sum_univ_two]
    rw [hdef, hvar]
    unfold mathSqrt
    rw [if_neg (by norm_num)]
    have hs : Real.sqrt (max (0.005 : ℝ) 0) = 0.1 / Real.sqrt 2 := by
      rw [max_eq_left (by norm_num)]
      have h2 : (0.005 : ℝ) = (0.1 / Real.sqrt 2) ^ 2 := by
        rw [div_pow, Real.sq_sqrt (by norm_num : (0 : ℝ) ≤ 2)]
        norm_num
      rw [h2, Real.sqrt_sq (by positivity)]
    rw [hs]

/-- Claim C10: the FX module's `portfolio_volatility` clamps a negative variance
to 0 before the square root, so for every real input combination it
succeeds and returns the nonnegative value `sqrt(max(w·cov·w, 0))`. -/
theorem fx_portfolio_volatility_total (we wj va vb c : ℝ) :
    portfolio_volatility we wj va vb c =
      .ok (Real.sqrt (max (Matrix.vecMul ![we, wj] (fxCov va vb c) ⬝ᵥ
        (![we, wj] : Fin 2 → ℝ)) 0))
    ∧ 0 ≤ Real.sqrt (max (Matrix.vecMul ![we, wj] (fxCov va vb c) ⬝ᵥ
        (![we, wj] : Fin 2 → ℝ)) 0) := by
  constructor
  · unfold portfolio_volatility mathSqrt
    rw [if_neg (not_lt.mpr (le_max_right _ _))]
  · exact Real.sqrt_nonneg _

theorem allcloseSym_cex_matrix :
    allcloseSym [[1, 1.000001, 0], [1, 1, 0], [0, 0, 1]] := by
  intro i hi j hj
  interval_cases i <;> interval_cases j <;>
    · simp only [covGet, List.getD_cons_zero, List.getD_cons_succ]
      rw [abs_sub_le_iff]
      norm_num [abs_of_nonneg]

/-- Claim C9 counterexample: the matrix `[[1, 1.000001, 0], [1, 1, 0], [0, 0, 1]]`
is asymmetric by `1e-6 > 1e-10`, yet validation accepts it, because
`np.allclose(cov, cov.T, atol=1e-10)` keeps numpy's default relative
tolerance `rtol = 1e-5`: the effective tolerance is
`1e-10 + 1e-5 * |cov[j][i]|`, not the absolute `1e-10` the claim states. -/
theorem validate_inputs_rtol_cex :
    validate_inputs [0, 0, 0] [[1, 1.000001, 0], [1, 1, 0], [0, 0, 1]] =
      .ok ([0, 0, 0], [[1, 1.000001, 0], [1, 1, 0], [0, 0, 1]])
    ∧ 1e-10 < |covGet [[1, 1.000001, 0], [1, 1, 0], [0, 0, 1]] 0 1 -
        covGet [[1, 1.000001, 0], [1, 1, 0], [0, 0, 1]] 1 0| := by
  constructor
  · unfold validate_inputs
    rw [if_neg (by norm_num), if_neg (by
        rw [not_not]
        exact ⟨by norm_num, by intro row hrow; fin_cases hrow <;> norm_num⟩),
      if_neg (not_not_intro allcloseSym_cex_matrix)]
  · simp only [covGet, List.getD_cons_zero, List.getD_cons_succ]
    rw [abs_of_nonneg (by norm_num)]
    norm_num

/-- Claim C9 amended: validation checks fire in order — `mu` not length 3 →
shape error; `cov` not 3x3 → shape error; `cov` not symmetric within the
`np.allclose` tolerance `1e-10 + 1e-5 * |cov[j][i]|` (absolute `1e-10`
plus numpy's default relative `1e-5`) → symmetry error; otherwise the
inputs are returned unchanged. -/
theorem validate_inputs_cases (mu : List ℝ) (cov : List (List ℝ)) :
    (mu.length ≠ 3 → validate_inputs mu cov = .error .shapeError)
    ∧ (mu.length = 3 → ¬ covShape3 cov →
        validate_inputs mu cov = .error .shapeError)
    ∧ (mu.length = 3 → covShape3 cov → ¬ allcloseSym cov →
        validate_inputs mu cov = .error .symmetryError)
    ∧ (mu.length = 3 → covShape3 cov → allcloseSym cov →
        validate_inputs mu cov = .ok (mu, cov)) := by
  refine ⟨?_, ?_, ?_, ?_⟩
  · intro h
    unfold validate_inputs
    rw [if_pos h]
  · intro h1 h2
    unfold validate_inputs
    rw [if_neg (not_not_intro h1), if_pos h2]
  · intro h1 h2 h3
    unfold validate_inputs
    rw [if_neg (not_not_intro h1), if_neg (not_not_intro h2), if_pos h3]
  · intro h1 h2 h3
    unfold validate_inputs
    rw [if_neg (not_not_intro h1), if_neg (not_not_intro h2),
      if_neg (not_not_intro h3)]

/-- Claim C9 witness: a length-2 `mu` is rejected with a shape error. -/
theorem validate_inputs_cases_witness :
    validate_inputs [0, 0] [] = .error .shapeError :=
  (validate_inputs_cases [0, 0] []).1 (by norm_num)
